import Mathlib

/-!
Verification of the `Space` / `SpaceTable` address-space registry of
`terminus_spaceport` (`src/space.rs`), as a shallow embedding.

Modelling conventions:
* `u64` values are `Nat`s below `2^64`; the `u64` additions and the `- 1`
  subtractions performed by the source are modelled with explicit wraparound
  (`% 2^64`, Rust release-mode semantics) by `wadd` and `wsub1`.
* `BTreeMap<u64, (String, Arc<Region>)>` is modelled as a strictly key-sorted
  association list; its iteration order, `insert`, `remove` and
  `range((Unbounded, Included(addr))).last()` are transcribed on that list.
* `HashMap<String, Vec<RegionCPtr>>` is modelled as an association list; only
  its per-key `entry`/`remove` interface is used by the source.
* Stateful methods are put in state-passing form: a method that mutates
  `self` returns the updated `Space` next to its result, and `delete_region`
  additionally returns the list of foreign pointers it disposes, in order.
* The external, reference-counted `Region` collaborator is not part of
  `src/`; it is modelled from the spec (base/size attributes, a type label,
  and opaque typed-access capabilities).
-/

/-- The modulus of 64-bit unsigned arithmetic. -/
def U64 : Nat := 2 ^ 64

/-- Wrapping 64-bit addition (Rust `u64` `+`, release-mode wraparound). -/
def wadd (a b : Nat) : Nat := (a + b) % U64

/-- Wrapping 64-bit decrement (Rust `u64` `- 1`, release-mode wraparound). -/
def wsub1 (a : Nat) : Nat := (a + (U64 - 1)) % U64

/-- Modelled from the spec: the immutable base/size attributes of the external
`Region` collaborator (the `info` field of `crate::memory::region::Region`,
which lives outside `src/`). -/
structure RegionInfo where
  base : Nat
  size : Nat
deriving DecidableEq

/-- A region is well formed when its size is positive and `base + size` does
not overflow the 64-bit address space (the spec's data model requires
`size > 0` and leaves `base + size` overflow unspecified). -/
def RegionInfo.valid (i : RegionInfo) : Prop :=
  0 < i.size ∧ i.base + i.size < U64

instance (i : RegionInfo) : Decidable i.valid := by
  unfold RegionInfo.valid; exact inferInstance

/-- Modelled from the spec: the external, reference-counted `Region`
collaborator (`crate::memory::region`, outside `src/`): immutable bounds, a
type label, and typed read/write capabilities for 8/16/32/64-bit scalars and
byte ranges. Write and byte-range capabilities produce an opaque effect of
type `α`. -/
structure Region (α : Type) where
  info : RegionInfo
  rtype : String
  r8 : Nat → Nat
  r16 : Nat → Nat
  r32 : Nat → Nat
  r64 : Nat → Nat
  w8 : Nat → Nat → α
  w16 : Nat → Nat → α
  w32 : Nat → Nat → α
  w64 : Nat → Nat → α
  rbytes : Nat → List Nat → α
  wbytes : Nat → List Nat → α

/-- A region is valid when its bounds are. -/
def Region.valid {α : Type} (r : Region α) : Prop := r.info.valid

instance {α : Type} (r : Region α) : Decidable r.valid := by
  unfold Region.valid; exact inferInstance

/-- Modelled from the spec: the opaque foreign-resource handle registered by
`Space::clean` (`RegionCPtr`, a `*const Box<Arc<Region>>`); only its identity
matters to the bookkeeping, so it is modelled as a bare identifier. -/
abbrev RegionCPtr := Nat

/-- `space::Error` (src/space.rs:10-13). -/
inductive SpaceError where
  | Overlap : String → String → SpaceError
  | Renamed : String → String → SpaceError
deriving DecidableEq

/-- The diagnostic text of a `Renamed` error (src/space.rs:38). -/
def renamedMsg (name : String) : String :=
  "region name " ++ name ++ " has existed!"

/-- Modelled from the spec: the `Debug` rendering of the external
`RegionInfo`; the spec only requires the overlap diagnostic to embed both
regions' base and size. -/
def infoRepr (i : RegionInfo) : String :=
  "RegionInfo \x7b base: " ++ toString i.base ++ ", size: " ++ toString i.size ++ " \x7d"

/-- The diagnostic text of an `Overlap` error (src/space.rs:46). -/
def overlapMsg (name : String) (ri : RegionInfo) (vname : String) (vi : RegionInfo) : String :=
  "region [" ++ name ++ " : " ++ infoRepr ri ++ "] is overlapped with [" ++
    vname ++ " : " ++ infoRepr vi ++ "]!"

/-- `space::Space` (src/space.rs:24-28): the base-keyed ordered region map
and the per-name foreign-pointer lists. -/
structure Space (α : Type) where
  regions : List (Nat × String × Region α)
  ptrs : List (String × List RegionCPtr)

/-- `Space::new` (src/space.rs:31-33). -/
def Space.new {α : Type} : Space α := ⟨[], []⟩

/-- `BTreeMap::insert` on the sorted association list: insert keyed by `k`,
replacing an existing entry with the same key. -/
def btInsert {β : Type} (k : Nat) (v : β) : List (Nat × β) → List (Nat × β)
  | [] => [(k, v)]
  | e :: rest =>
    if k < e.1 then (k, v) :: e :: rest
    else if k = e.1 then (k, v) :: rest
    else e :: btInsert k v rest

/-- `BTreeMap::remove` on the sorted association list: drop the entry keyed
`k` (keys are unique, so at most one). -/
def btRemove {β : Type} (k : Nat) : List (Nat × β) → List (Nat × β)
  | [] => []
  | e :: rest => if e.1 = k then rest else e :: btRemove k rest

/-- `HashMap::remove(name)` on the association list: the removed value (if
any) together with the remaining list. -/
def alRemove {γ : Type} (name : String) : List (String × γ) → Option γ × List (String × γ)
  | [] => (none, [])
  | e :: rest =>
    if e.1 = name then (some e.2, rest)
    else ((alRemove name rest).1, e :: (alRemove name rest).2)

/-- `HashMap::entry(name).or_insert(vec![]).push(p)` on the association
list. -/
def alPush {γ : Type} (name : String) (p : γ) : List (String × List γ) → List (String × List γ)
  | [] => [(name, [p])]
  | e :: rest =>
    if e.1 = name then (e.1, e.2 ++ [p]) :: rest
    else e :: alPush name p rest

/-- Lookup in the association list (the value stored under `name`). -/
def alLookup {γ : Type} (l : List (String × γ)) (name : String) : Option γ :=
  (l.find? (fun e => e.1 = name)).map (·.2)

/-- The range-overlap test of `Space::add_region` (src/space.rs:41-44),
transcribed clause by clause; `r` is the candidate's info, `v` an existing
region's info. `u64` arithmetic is wrapping. -/
def overlapPred (r v : RegionInfo) : Prop :=
  (v.base ≤ r.base ∧ r.base < wadd v.base v.size) ∨
  (v.base ≤ wsub1 (wadd r.base r.size) ∧ wsub1 (wadd r.base r.size) < wadd v.base v.size) ∨
  (r.base ≤ v.base ∧ v.base < wadd r.base r.size) ∨
  (r.base ≤ wsub1 (wadd v.base v.size) ∧ wsub1 (wadd v.base v.size) < wadd r.base r.size)

instance (r v : RegionInfo) : Decidable (overlapPred r v) := by
  unfold overlapPred; exact inferInstance

/-- `Space::add_region` (src/space.rs:35-53), in state-passing form: the
call's result next to the Space after the call (unchanged on failure). The
name check runs first, then the overlap check, both over the map's values in
base order; on success the region is inserted keyed by its base and a shared
handle to the same region is returned. -/
def Space.add_region {α : Type} (s : Space α) (name : String) (region : Region α) :
    Except SpaceError (Region α) × Space α :=
  match s.regions.find? (fun e => e.2.1 = name) with
  | some _ => (.error (.Renamed name (renamedMsg name)), s)
  | none =>
    match s.regions.find? (fun e => overlapPred region.info e.2.2.info) with
    | some v =>
      (.error (.Overlap v.2.1 (overlapMsg name region.info v.2.1 v.2.2.info)), s)
    | none =>
      (.ok region, { s with regions := btInsert region.info.base (name, region) s.regions })

/-- `Space::delete_region` (src/space.rs:55-63), in state-passing form: the
Space after the call next to the foreign pointers disposed, in registration
order (the source drops each `RegionCPtr` of the removed `ptrs` entry in
iteration order of the `Vec`). -/
def Space.delete_region {α : Type} (s : Space α) (name : String) :
    Space α × List RegionCPtr :=
  let regions' :=
    match s.regions.find? (fun e => e.2.1 = name) with
    | some e => btRemove e.1 s.regions
    | none => s.regions
  ({ regions := regions', ptrs := (alRemove name s.ptrs).2 },
    ((alRemove name s.ptrs).1).getD [])

/-- `Space::get_region` (src/space.rs:65-71). -/
def Space.get_region {α : Type} (s : Space α) (name : String) : Option (Region α) :=
  match s.regions.find? (fun e => e.2.1 = name) with
  | some e => some e.2.2
  | none => none

/-- `Space::get_region_by_addr` (src/space.rs:73-83): predecessor search over
the base-keyed map (`range((Unbounded, Included(addr))).last()`), then the
upper-bound check `addr < base + size` with wrapping `u64` addition. -/
def Space.get_region_by_addr {α : Type} (s : Space α) (addr : Nat) :
    Except Nat (Region α) :=
  match (s.regions.filter (fun e => e.1 ≤ addr)).getLast? with
  | some e =>
    if addr < wadd e.2.2.info.base e.2.2.info.size then .ok e.2.2 else .error addr
  | none => .error addr

/-- `Space::write_u8` (src/space.rs:85-88). -/
def Space.write_u8 {α : Type} (s : Space α) (addr : Nat) (data : Nat) : Except Nat α :=
  (s.get_region_by_addr addr).map (fun region => region.w8 addr data)

/-- `Space::read_u8` (src/space.rs:90-93). -/
def Space.read_u8 {α : Type} (s : Space α) (addr : Nat) : Except Nat Nat :=
  (s.get_region_by_addr addr).map (fun region => region.r8 addr)

/-- `Space::write_u16` (src/space.rs:95-98). -/
def Space.write_u16 {α : Type} (s : Space α) (addr : Nat) (data : Nat) : Except Nat α :=
  (s.get_region_by_addr addr).map (fun region => region.w16 addr data)

/-- `Space::read_u16` (src/space.rs:100-103). -/
def Space.read_u16 {α : Type} (s : Space α) (addr : Nat) : Except Nat Nat :=
  (s.get_region_by_addr addr).map (fun region => region.r16 addr)

/-- `Space::write_u32` (src/space.rs:105-108). -/
def Space.write_u32 {α : Type} (s : Space α) (addr : Nat) (data : Nat) : Except Nat α :=
  (s.get_region_by_addr addr).map (fun region => region.w32 addr data)

/-- `Space::read_u32` (src/space.rs:110-113). -/
def Space.read_u32 {α : Type} (s : Space α) (addr : Nat) : Except Nat Nat :=
  (s.get_region_by_addr addr).map (fun region => region.r32 addr)

/-- `Space::write_u64` (src/space.rs:115-118). -/
def Space.write_u64 {α : Type} (s : Space α) (addr : Nat) (data : Nat) : Except Nat α :=
  (s.get_region_by_addr addr).map (fun region => region.w64 addr data)

/-- `Space::read_u64` (src/space.rs:120-123). -/
def Space.read_u64 {α : Type} (s : Space α) (addr : Nat) : Except Nat Nat :=
  (s.get_region_by_addr addr).map (fun region => region.r64 addr)

/-- `Space::write_bytes` (src/space.rs:125-128). -/
def Space.write_bytes {α : Type} (s : Space α) (addr : Nat) (data : List Nat) : Except Nat α :=
  (s.get_region_by_addr addr).map (fun region => region.wbytes addr data)

/-- `Space::read_bytes` (src/space.rs:130-133); the caller's buffer is passed
through to the region's byte-range capability. -/
def Space.read_bytes {α : Type} (s : Space α) (addr : Nat) (data : List Nat) : Except Nat α :=
  (s.get_region_by_addr addr).map (fun region => region.rbytes addr data)

/-- `Space::clean` (src/space.rs:135-138): register a foreign pointer under
`name` for disposal when that name is deleted. -/
def Space.clean {α : Type} (s : Space α) (name : String) (p : RegionCPtr) : Space α :=
  { s with ptrs := alPush name p s.ptrs }

/-- `SpaceTable` (src/space.rs:155-157). The shared `Arc<Mutex<Space>>`
handles are modelled by references into an explicit heap: `spaces` maps a
space name to the index of its Space in `heap`, and a handle is such an
index, so aliasing of handles is observable. -/
structure SpaceTable (α : Type) where
  heap : List (Space α)
  spaces : List (String × Nat)

/-- `SpaceTable::get_space` (src/space.rs:160-169): return the existing
Space's handle for `name`, or construct exactly one fresh empty Space,
register it under `name`, and return its handle. (The one-shot
`"space_query"` console notification is an I/O effect outside the model.) -/
def SpaceTable.get_space {α : Type} (t : SpaceTable α) (name : String) :
    Nat × SpaceTable α :=
  match t.spaces.find? (fun e => e.1 = name) with
  | some e => (e.2, t)
  | none => (t.heap.length, ⟨t.heap ++ [Space.new], t.spaces ++ [(name, t.heap.length)]⟩)

/-- Dereference a Space handle (reading through the `Arc<Mutex<Space>>`). -/
def SpaceTable.deref {α : Type} (t : SpaceTable α) (r : Nat) : Option (Space α) :=
  t.heap[r]?

/-- Overwrite the Space behind a handle (a caller mutating through the
`Arc<Mutex<Space>>`). -/
def SpaceTable.setSpace {α : Type} (t : SpaceTable α) (r : Nat) (s : Space α) : SpaceTable α :=
  { t with heap := t.heap.set r s }

/-- Mathematical intersection of two half-open ranges `[base, base + size)`. -/
def rangesIntersect (a b : RegionInfo) : Prop :=
  a.base < b.base + b.size ∧ b.base < a.base + a.size

instance (a b : RegionInfo) : Decidable (rangesIntersect a b) := by
  unfold rangesIntersect; exact inferInstance

/-- The Space invariants of the spec (§3): strictly base-sorted map keys,
every key equal to the stored region's base, pairwise-distinct names,
pairwise-disjoint half-open ranges, and every stored region valid. -/
def Space.WF {α : Type} (s : Space α) : Prop :=
  s.regions.Pairwise (fun a b => a.1 < b.1) ∧
  (∀ e ∈ s.regions, e.1 = e.2.2.info.base) ∧
  s.regions.Pairwise (fun a b => a.2.1 ≠ b.2.1) ∧
  s.regions.Pairwise (fun a b => ¬ rangesIntersect a.2.2.info b.2.2.info) ∧
  (∀ e ∈ s.regions, (e.2.2).valid)

instance {α : Type} (s : Space α) : Decidable s.WF := by
  unfold Space.WF; exact inferInstance

/-- Run a sequence of `add_region` calls, threading the Space. -/
def Space.addSeq {α : Type} (s : Space α) : List (String × Region α) → Space α
  | [] => s
  | p :: rest => ((s.add_region p.1 p.2).2).addSeq rest

/-- Whether every `add_region` call in the sequence returns `Ok`. -/
def Space.addSeqOk {α : Type} (s : Space α) : List (String × Region α) → Bool
  | [] => true
  | p :: rest =>
    (s.add_region p.1 p.2).1.isOk && ((s.add_region p.1 p.2).2).addSeqOk rest

/-- The name carried by an `Overlap` error outcome, if that is what the
result is. -/
def errOverlapName {γ : Type} : Except SpaceError γ → Option String
  | .error (.Overlap n _) => some n
  | _ => none

/-- A sample region over an abstract effect `Unit`, for concrete witnesses. -/
def sampleRegion (b sz : Nat) : Region Unit :=
  ⟨⟨b, sz⟩, "ram", fun _ => 0, fun _ => 0, fun _ => 0, fun _ => 0,
    fun _ _ => (), fun _ _ => (), fun _ _ => (), fun _ _ => (),
    fun _ _ => (), fun _ _ => ()⟩

/-- Sample region `[0, 10)`. -/
def regA : Region Unit := sampleRegion 0 10

/-- Sample region `[20, 30)`. -/
def regB : Region Unit := sampleRegion 20 10

/-- Sample region `[5, 25)`: intersects both `regA` and `regB`. -/
def regC : Region Unit := sampleRegion 5 20

/-- Sample region `[40, 45)`: disjoint from `regA` and `regB`. -/
def regD : Region Unit := sampleRegion 40 5

/-- Sample region of size zero at base 5. -/
def regZero : Region Unit := sampleRegion 5 0

/-- A well-formed sample Space holding `"a" ↦ regA`. -/
def spaceA : Space Unit := ⟨[(0, "a", regA)], []⟩

/-- A well-formed sample Space holding `"a" ↦ regA` and `"b" ↦ regB`. -/
def spaceAB : Space Unit := ⟨[(0, "a", regA), (20, "b", regB)], []⟩

/-- A sample batch of two disjoint, distinctly named regions. -/
def psRAM : List (String × Region Unit) :=
  [("ram", sampleRegion 4096 4096), ("rom", sampleRegion 8192 4096)]

/-- The empty space table. -/
def emptyTable : SpaceTable Unit := ⟨[], []⟩

/-! ### Arithmetic lemmas: wrapping `u64` operations on valid inputs -/

theorem U64_one_le : 1 ≤ U64 := by
  unfold U64; exact Nat.one_le_two_pow

theorem wadd_eq {a b : Nat} (h : a + b < U64) : wadd a b = a + b :=
  Nat.mod_eq_of_lt h

theorem wsub1_eq {a : Nat} (h1 : 1 ≤ a) (h2 : a < U64) : wsub1 a = a - 1 := by
  have hU : 1 ≤ U64 := U64_one_le
  unfold wsub1
  have h3 : a + (U64 - 1) = (a - 1) + U64 := by omega
  rw [h3, Nat.add_mod_right, Nat.mod_eq_of_lt (by omega)]

theorem rangesIntersect_symm {a b : RegionInfo} (h : rangesIntersect a b) :
    rangesIntersect b a := ⟨h.2, h.1⟩

/-- On valid regions, the source's four-clause overlap test coincides with
mathematical intersection of the half-open ranges. -/
theorem overlapPred_iff_intersect {r v : RegionInfo} (hr : r.valid) (hv : v.valid) :
    overlapPred r v ↔ rangesIntersect r v := by
  obtain ⟨hr1, hr2⟩ := hr
  obtain ⟨hv1, hv2⟩ := hv
  unfold overlapPred rangesIntersect
  rw [wadd_eq hr2, wadd_eq hv2, wsub1_eq (by omega) hr2, wsub1_eq (by omega) hv2]
  omega

/-! ### Sorted association list lemmas -/

theorem mem_btInsert {β : Type} {k : Nat} {v : β} {l : List (Nat × β)} {e : Nat × β}
    (h : e ∈ btInsert k v l) : e = (k, v) ∨ e ∈ l := by
  induction l with
  | nil => simpa [btInsert] using h
  | cons hd tl ih =>
    unfold btInsert at h
    split at h
    · exact (List.mem_cons.mp h).imp id id
    · split at h
      · exact (List.mem_cons.mp h).imp id (List.mem_cons_of_mem _)
      · rcases List.mem_cons.mp h with h' | h'
        · exact Or.inr (h' ▸ List.mem_cons_self _ _)
        · exact (ih h').imp id (List.mem_cons_of_mem _)

theorem btInsert_perm {β : Type} {k : Nat} {v : β} {l : List (Nat × β)}
    (h : ∀ e ∈ l, e.1 ≠ k) : (btInsert k v l).Perm ((k, v) :: l) := by
  induction l with
  | nil => simp [btInsert]
  | cons hd tl ih =>
    unfold btInsert
    split
    · exact List.Perm.refl _
    · split
      · exact absurd ‹k = hd.1›.symm (h hd (List.mem_cons_self _ _))
      · exact ((ih (fun e he => h e (List.mem_cons_of_mem _ he))).cons hd).trans
          (List.Perm.swap (k, v) hd tl)

theorem btInsert_sorted {β : Type} {k : Nat} {v : β} {l : List (Nat × β)}
    (h : l.Pairwise (fun a b => a.1 < b.1)) :
    (btInsert k v l).Pairwise (fun a b => a.1 < b.1) := by
  induction l with
  | nil => simp [btInsert]
  | cons hd tl ih =>
    rw [List.pairwise_cons] at h
    unfold btInsert
    split
    · rw [List.pairwise_cons]
      have hk : k < hd.1 := ‹k < hd.1›
      refine ⟨fun e he => ?_, List.pairwise_cons.mpr h⟩
      rcases List.mem_cons.mp he with rfl | he'
      · exact hk
      · exact lt_trans hk (h.1 e he')
    · split
      · rw [List.pairwise_cons]
        refine ⟨fun e he => ?_, h.2⟩
        exact ‹k = hd.1› ▸ h.1 e he
      · rw [List.pairwise_cons]
        refine ⟨fun e he => ?_, ih h.2⟩
        rcases mem_btInsert he with rfl | he'
        · show hd.1 < k
          omega
        · exact h.1 e he'

theorem btRemove_sublist {β : Type} (k : Nat) (l : List (Nat × β)) :
    (btRemove k l).Sublist l := by
  induction l with
  | nil => simp [btRemove]
  | cons hd tl ih =>
    unfold btRemove
    split
    · exact List.sublist_cons_self hd tl
    · exact List.Sublist.cons₂ hd ih

theorem getLast?_mem {β : Type} : ∀ {l : List β} {e : β}, l.getLast? = some e → e ∈ l
  | [], _, h => by simp at h
  | [a], e, h => by
    rw [List.getLast?_singleton] at h
    exact (Option.some.inj h) ▸ List.mem_cons_self _ _
  | a :: b :: t, e, h => by
    rw [List.getLast?_cons_cons] at h
    exact List.mem_cons_of_mem _ (getLast?_mem h)

/-- On a strictly key-sorted list, if `e₀`'s key is at most `addr` and every
strictly larger key exceeds `addr`, then `e₀` is the last entry surviving the
`key ≤ addr` filter (the predecessor `range(..=addr).last()` returns). -/
theorem getLast?_filter_le {β : Type} {l : List (Nat × β)} {e₀ : Nat × β} {addr : Nat}
    (hs : l.Pairwise (fun a b => a.1 < b.1)) (he : e₀ ∈ l) (h1 : e₀.1 ≤ addr)
    (h2 : ∀ e ∈ l, e₀.1 < e.1 → addr < e.1) :
    (l.filter (fun e => e.1 ≤ addr)).getLast? = some e₀ := by
  induction l with
  | nil => cases he
  | cons hd tl ih =>
    rw [List.pairwise_cons] at hs
    rcases List.mem_cons.mp he with rfl | he'
    · have hnil : tl.filter (fun e => e.1 ≤ addr) = [] := by
        rw [List.filter_eq_nil_iff]
        intro e hemem
        have h3 := h2 e (List.mem_cons_of_mem _ hemem) (hs.1 e hemem)
        simp only [decide_eq_true_eq]
        omega
      rw [List.filter_cons, if_pos (by simpa using h1), hnil, List.getLast?_singleton]
    · have hhd : hd.1 ≤ addr := le_trans (le_of_lt (hs.1 e₀ he')) h1
      rw [List.filter_cons, if_pos (by simpa using hhd)]
      have ihr := ih hs.2 he' (fun e hemem => h2 e (List.mem_cons_of_mem _ hemem))
      cases hft : tl.filter (fun e => e.1 ≤ addr) with
      | nil => rw [hft] at ihr; cases ihr
      | cons x xs => rw [hft] at ihr; rw [List.getLast?_cons_cons]; exact ihr

/-! ### Resolution lemmas for `get_region_by_addr` -/

/-- In a well-formed Space, an address inside a stored region's half-open
range resolves to exactly that region. -/
theorem get_region_by_addr_mem {α : Type} {s : Space α} {k : Nat} {n : String}
    {r : Region α} {addr : Nat} (hWF : s.WF) (he : (k, n, r) ∈ s.regions)
    (h1 : r.info.base ≤ addr) (h2 : addr < r.info.base + r.info.size) :
    s.get_region_by_addr addr = .ok r := by
  obtain ⟨hsort, hkeys, _, hdisj, hval⟩ := hWF
  have hk : k = r.info.base := hkeys (k, n, r) he
  have hrv : r.valid := hval (k, n, r) he
  have hlast : (s.regions.filter (fun e => e.1 ≤ addr)).getLast? = some (k, n, r) := by
    apply getLast?_filter_le hsort he
    · show k ≤ addr
      omega
    · intro e hemem hlt
      have hkey := hkeys e hemem
      have hev : 0 < e.2.2.info.size ∧ e.2.2.info.base + e.2.2.info.size < U64 :=
        hval e hemem
      have hne : (k, n, r) ≠ e := by
        intro hcontra
        rw [← hcontra] at hlt
        exact lt_irrefl _ hlt
      have hsymm : ∀ {x y : Nat × String × Region α},
          ¬ rangesIntersect x.2.2.info y.2.2.info →
          ¬ rangesIntersect y.2.2.info x.2.2.info :=
        fun hx hy => hx (rangesIntersect_symm hy)
      have hni : ¬ rangesIntersect r.info e.2.2.info :=
        (List.Pairwise.forall (fun _ _ h => hsymm h) hdisj) he hemem hne
      unfold rangesIntersect at hni
      have hlt' : k < e.1 := hlt
      obtain ⟨hr1, _⟩ := hrv
      omega
  have hb : wadd r.info.base r.info.size = r.info.base + r.info.size := wadd_eq hrv.2
  unfold Space.get_region_by_addr
  rw [hlast]
  simp only [hb]
  rw [if_pos h2]

/-- In a well-formed Space, an address covered by no stored region resolves
to the unmapped failure carrying exactly the queried address. -/
theorem get_region_by_addr_notCovered {α : Type} {s : Space α} {addr : Nat}
    (hWF : s.WF)
    (h : ∀ e ∈ s.regions,
      ¬ (e.2.2.info.base ≤ addr ∧ addr < e.2.2.info.base + e.2.2.info.size)) :
    s.get_region_by_addr addr = .error addr := by
  obtain ⟨_, hkeys, _, _, hval⟩ := hWF
  unfold Space.get_region_by_addr
  split
  case _ e hlast =>
    have hmem := getLast?_mem hlast
    rw [List.mem_filter] at hmem
    obtain ⟨hmem, hle⟩ := hmem
    rw [decide_eq_true_eq] at hle
    have hkey := hkeys e hmem
    have hov : e.2.2.info.base + e.2.2.info.size < U64 := (hval e hmem).2
    have hnc := h e hmem
    have hn : ¬ addr < e.2.2.info.base + e.2.2.info.size := by omega
    rw [wadd_eq hov, if_neg hn]
  case _ => rfl

/-- `get_region_by_addr` only ever fails with the queried address itself. -/
theorem get_region_by_addr_error_eq {α : Type} {s : Space α} {addr a : Nat}
    (h : s.get_region_by_addr addr = .error a) : a = addr := by
  unfold Space.get_region_by_addr at h
  split at h
  case _ e hlast =>
    split at h
    · cases h
    · exact (Except.error.inj h).symm
  case _ => exact (Except.error.inj h).symm

/-! ### `add_region` lemmas -/

/-- If the name is already taken, `add_region` fails with `Renamed` carrying
that name and leaves the Space untouched (the name check runs first). -/
theorem add_region_renamed {α : Type} {s : Space α} {name : String} (region : Region α)
    (hocc : ∃ e ∈ s.regions, e.2.1 = name) :
    s.add_region name region = (.error (.Renamed name (renamedMsg name)), s) := by
  have hsome : (s.regions.find? (fun e => e.2.1 = name)).isSome = true := by
    rw [List.find?_isSome]
    obtain ⟨e, hmem, hname⟩ := hocc
    exact ⟨e, hmem, by simpa using hname⟩
  obtain ⟨e', hfind⟩ := Option.isSome_iff_exists.mp hsome
  simp only [Space.add_region, hfind]

/-- If the name is fresh and the candidate's range intersects no stored
region's range, `add_region` succeeds, returning a handle to the same region
and inserting it keyed by its base. -/
theorem add_region_ok {α : Type} {s : Space α} {name : String} {region : Region α}
    (hWF : s.WF) (hval : region.valid)
    (hfresh : ∀ e ∈ s.regions, e.2.1 ≠ name)
    (hdisj : ∀ e ∈ s.regions, ¬ rangesIntersect region.info e.2.2.info) :
    s.add_region name region =
      (.ok region,
        { s with regions := btInsert region.info.base (name, region) s.regions }) := by
  have hf1 : s.regions.find? (fun e => e.2.1 = name) = none := by
    rw [List.find?_eq_none]
    intro e he
    simpa using hfresh e he
  have hf2 : s.regions.find? (fun e => overlapPred region.info e.2.2.info) = none := by
    rw [List.find?_eq_none]
    intro e he
    simp only [decide_eq_true_eq]
    rw [overlapPred_iff_intersect hval (hWF.2.2.2.2 e he)]
    exact hdisj e he
  simp only [Space.add_region, hf1, hf2]

/-- Whatever its inputs, a successful `add_region` of a valid region into a
well-formed Space yields a well-formed Space whose entries are the old ones
plus the new `(base, name, region)` entry; a failing call leaves the Space
unchanged. Packaged for any outcome. -/
theorem add_region_WF {α : Type} {s : Space α} {name : String} {region : Region α}
    (hWF : s.WF) (hval : region.valid) :
    ((s.add_region name region).2).WF ∧
    (∀ e ∈ (s.add_region name region).2.regions,
      e ∈ s.regions ∨ e = (region.info.base, name, region)) := by
  obtain ⟨hsort, hkeys, hnames, hdisj, hvals⟩ := hWF
  cases hf1 : s.regions.find? (fun e => e.2.1 = name) with
  | some e =>
    simp only [Space.add_region, hf1]
    exact ⟨⟨hsort, hkeys, hnames, hdisj, hvals⟩, fun e he => Or.inl he⟩
  | none =>
    cases hf2 : s.regions.find? (fun e => overlapPred region.info e.2.2.info) with
    | some v =>
      simp only [Space.add_region, hf1, hf2]
      exact ⟨⟨hsort, hkeys, hnames, hdisj, hvals⟩, fun e he => Or.inl he⟩
    | none =>
      have hfresh : ∀ e ∈ s.regions, e.2.1 ≠ name := by
        intro e he
        have := List.find?_eq_none.mp hf1 e he
        simpa using this
      have hnover : ∀ e ∈ s.regions, ¬ rangesIntersect region.info e.2.2.info := by
        intro e he
        have := List.find?_eq_none.mp hf2 e he
        rw [← overlapPred_iff_intersect hval (hvals e he)]
        simpa using this
      have hknot : ∀ e ∈ s.regions, e.1 ≠ region.info.base := by
        intro e he hcontra
        have hkey := hkeys e he
        have hev : 0 < e.2.2.info.size ∧ e.2.2.info.base + e.2.2.info.size < U64 :=
          hvals e he
        have hrv : 0 < region.info.size ∧ region.info.base + region.info.size < U64 :=
          hval
        exact hnover e he ⟨by omega, by omega⟩
      have hperm := btInsert_perm (l := s.regions)
        (k := region.info.base) (v := (name, region)) hknot
      simp only [Space.add_region, hf1, hf2]
      constructor
      · refine ⟨btInsert_sorted hsort, ?_, ?_, ?_, ?_⟩
        · intro e he
          rcases mem_btInsert he with rfl | he'
          · rfl
          · exact hkeys e he'
        · rw [List.Perm.pairwise_iff (fun h => h.symm) hperm, List.pairwise_cons]
          exact ⟨fun e he => fun hc => hfresh e he hc.symm, hnames⟩
        · have hsymm : ∀ {x y : Nat × String × Region α},
              ¬ rangesIntersect x.2.2.info y.2.2.info →
              ¬ rangesIntersect y.2.2.info x.2.2.info :=
            fun hx hy => hx (rangesIntersect_symm hy)
          rw [List.Perm.pairwise_iff (fun h => hsymm h) hperm, List.pairwise_cons]
          exact ⟨hnover, hdisj⟩
        · intro e he
          rcases mem_btInsert he with rfl | he'
          · exact hval
          · exact hvals e he'
      · intro e he
        rcases mem_btInsert he with rfl | he'
        · exact Or.inr rfl
        · exact Or.inl he'

/-! ### `delete_region` lemmas -/

/-- Deleting preserves well-formedness and can only remove entries. -/
theorem delete_region_WF {α : Type} (s : Space α) (name : String) (hWF : s.WF) :
    ((s.delete_region name).1).WF ∧
    (∀ e ∈ (s.delete_region name).1.regions, e ∈ s.regions) := by
  obtain ⟨hsort, hkeys, hnames, hdisj, hvals⟩ := hWF
  have hsub : ((s.delete_region name).1).regions.Sublist s.regions := by
    unfold Space.delete_region
    cases hf : s.regions.find? (fun e => e.2.1 = name) with
    | some e => simpa using btRemove_sublist e.1 s.regions
    | none => simp
  refine ⟨⟨List.Pairwise.sublist hsub hsort, ?_, List.Pairwise.sublist hsub hnames,
    List.Pairwise.sublist hsub hdisj, ?_⟩, fun e he => hsub.subset he⟩
  · intro e he
    exact hkeys e (hsub.subset he)
  · intro e he
    exact hvals e (hsub.subset he)

/-- Deleting an absent name leaves the region map unchanged. -/
theorem delete_region_absent {α : Type} (s : Space α) (name : String)
    (h : ∀ e ∈ s.regions, e.2.1 ≠ name) :
    (s.delete_region name).1.regions = s.regions := by
  have hf : s.regions.find? (fun e => e.2.1 = name) = none := by
    rw [List.find?_eq_none]
    intro e he
    simpa using h e he
  simp only [Space.delete_region, hf]

/-- In a Space with pairwise-distinct names, two stored entries with the same
name are the same entry. -/
theorem entry_eq_of_name_eq {α : Type} {l : List (Nat × String × Region α)}
    (hp : l.Pairwise (fun a b => a.2.1 ≠ b.2.1)) :
    ∀ {a b : Nat × String × Region α}, a ∈ l → b ∈ l → a.2.1 = b.2.1 → a = b := by
  induction l with
  | nil => intro a b ha; cases ha
  | cons hd tl ih =>
    rw [List.pairwise_cons] at hp
    intro a b ha hb hn
    rcases List.mem_cons.mp ha with rfl | ha' <;> rcases List.mem_cons.mp hb with rfl | hb'
    · rfl
    · exact absurd hn (hp.1 b hb')
    · exact absurd hn.symm (hp.1 a ha')
    · exact ih hp.2 ha' hb' hn

/-- The entry list a successful `add_region` sequence builds up. -/
def entriesOf {α : Type} (ps : List (String × Region α)) :
    List (Nat × String × Region α) :=
  ps.map (fun p => (p.2.info.base, p.1, p.2))

/-- The invariant-carrying induction behind C1: starting from a well-formed
Space none of whose entries collides (by name or by range) with the batch,
a batch of valid, pairwise-distinct, pairwise-disjoint `add_region` calls
all succeed, and the final region map holds exactly the old entries plus one
entry per batch element. -/
theorem addSeq_spec {α : Type} :
    ∀ (ps : List (String × Region α)) (s : Space α), s.WF →
    (∀ p ∈ ps, (p.2).valid) →
    ps.Pairwise (fun a b => a.1 ≠ b.1) →
    ps.Pairwise (fun a b => ¬ rangesIntersect a.2.info b.2.info) →
    (∀ p ∈ ps, ∀ e ∈ s.regions,
      e.2.1 ≠ p.1 ∧ ¬ rangesIntersect p.2.info e.2.2.info) →
    Space.addSeqOk s ps = true ∧ (Space.addSeq s ps).WF ∧
    (∀ e, e ∈ (Space.addSeq s ps).regions ↔ e ∈ s.regions ∨ e ∈ entriesOf ps) := by
  intro ps
  induction ps with
  | nil =>
    intro s hWF _ _ _ _
    exact ⟨rfl, hWF, fun e => by simp [Space.addSeq, entriesOf]⟩
  | cons p rest ih =>
    intro s hWF hval hnames hdisj hcross
    have hpval : (p.2).valid := hval p (List.mem_cons_self _ _)
    have hfresh : ∀ e ∈ s.regions, e.2.1 ≠ p.1 :=
      fun e he => (hcross p (List.mem_cons_self _ _) e he).1
    have hnover : ∀ e ∈ s.regions, ¬ rangesIntersect p.2.info e.2.2.info :=
      fun e he => (hcross p (List.mem_cons_self _ _) e he).2
    have hok := add_region_ok hWF hpval hfresh hnover
    have hWF' : ((s.add_region p.1 p.2).2).WF := (add_region_WF hWF hpval).1
    rw [hok] at hWF'
    have hknot : ∀ e ∈ s.regions, e.1 ≠ p.2.info.base := by
      intro e he hcontra
      obtain ⟨_, hkeys, _, _, hvals⟩ := hWF
      have hkey := hkeys e he
      have hev : 0 < e.2.2.info.size ∧ e.2.2.info.base + e.2.2.info.size < U64 :=
        hvals e he
      have hrv : 0 < p.2.info.size ∧ p.2.info.base + p.2.info.size < U64 := hpval
      exact hnover e he ⟨by omega, by omega⟩
    have hperm := btInsert_perm (l := s.regions)
      (k := p.2.info.base) (v := (p.1, p.2)) hknot
    have hmem' : ∀ e, e ∈ (btInsert p.2.info.base (p.1, p.2) s.regions) ↔
        e ∈ s.regions ∨ e = (p.2.info.base, p.1, p.2) := by
      intro e
      rw [hperm.mem_iff, List.mem_cons]
      tauto
    rw [List.pairwise_cons] at hnames hdisj
    have hcross' : ∀ q ∈ rest,
        ∀ e ∈ (btInsert p.2.info.base (p.1, p.2) s.regions),
        e.2.1 ≠ q.1 ∧ ¬ rangesIntersect q.2.info e.2.2.info := by
      intro q hq e he
      rcases (hmem' e).mp he with he' | rfl
      · exact hcross q (List.mem_cons_of_mem _ hq) e he'
      · exact ⟨hnames.1 q hq, fun hint =>
          hdisj.1 q hq (rangesIntersect_symm hint)⟩
    have ihr := ih { s with regions := btInsert p.2.info.base (p.1, p.2) s.regions }
      hWF' (fun q hq => hval q (List.mem_cons_of_mem _ hq)) hnames.2 hdisj.2 hcross'
    refine ⟨?_, ?_, ?_⟩
    · unfold Space.addSeqOk
      rw [hok, Bool.and_eq_true]
      exact ⟨rfl, ihr.1⟩
    · unfold Space.addSeq
      rw [hok]
      exact ihr.2.1
    · intro e
      unfold Space.addSeq
      rw [hok]
      rw [ihr.2.2 e]
      simp only [hmem' e, entriesOf, List.map_cons, List.mem_cons]
      constructor
      · rintro ((he | rfl) | he)
        · exact Or.inl he
        · exact Or.inr (Or.inl rfl)
        · exact Or.inr (Or.inr (by simpa [entriesOf] using he))
      · rintro (he | (rfl | he))
        · exact Or.inl (Or.inl he)
        · exact Or.inl (Or.inr rfl)
        · exact Or.inr (by simpa [entriesOf] using he)

/-! ### Pointer-bookkeeping lemmas (`clean` / `delete_region` disposal) -/

theorem alRemove_fst {γ : Type} (name : String) (l : List (String × γ)) :
    (alRemove name l).1 = alLookup l name := by
  induction l with
  | nil => rfl
  | cons e t ih =>
    have ih' : (alRemove name t).1 = (t.find? (fun e => e.1 = name)).map (·.2) := ih
    by_cases h : e.1 = name
    · simp [alRemove, alLookup, List.find?_cons, h]
    · simp [alRemove, alLookup, List.find?_cons, h, ih']

theorem alRemove_snd_of_none {γ : Type} {name : String} {l : List (String × γ)}
    (h : alLookup l name = none) : (alRemove name l).2 = l := by
  induction l with
  | nil => rfl
  | cons e t ih =>
    by_cases he : e.1 = name
    · rw [alLookup, List.find?_cons] at h
      simp [he] at h
    · rw [alLookup, List.find?_cons] at h
      simp only [he, decide_eq_true_eq, decide_eq_false he] at h
      simp only [alRemove, if_neg he]
      rw [ih h]

theorem alRemove_alPush {γ : Type} (name : String) (p : γ)
    (l : List (String × List γ)) :
    alRemove name (alPush name p l) =
      (some (((alRemove name l).1).getD [] ++ [p]), (alRemove name l).2) := by
  induction l with
  | nil => simp [alPush, alRemove]
  | cons e t ih =>
    by_cases he : e.1 = name
    · simp [alPush, alRemove, he]
    · simp only [alPush, if_neg he, alRemove]
      rw [ih]

/-- Folding `clean` over a batch of pointers only grows the `ptrs` side. -/
theorem foldl_clean_eq {α : Type} (name : String) :
    ∀ (ps : List RegionCPtr) (s : Space α),
      (ps.foldl (fun sp q => sp.clean name q) s).ptrs =
        ps.foldl (fun acc q => alPush name q acc) s.ptrs ∧
      (ps.foldl (fun sp q => sp.clean name q) s).regions = s.regions := by
  intro ps
  induction ps with
  | nil => intro s; exact ⟨rfl, rfl⟩
  | cons q qs ih =>
    intro s
    simp only [List.foldl_cons]
    exact ih (s.clean name q)

/-- Disposal after a batch of `alPush`es: the removed vector is the old one
extended by the batch, and the remainder of the list is untouched. -/
theorem foldl_alPush_remove {γ : Type} (name : String) :
    ∀ (ps : List γ) (l : List (String × List γ)),
      ((alRemove name (ps.foldl (fun acc q => alPush name q acc) l)).1).getD [] =
        ((alRemove name l).1).getD [] ++ ps ∧
      (alRemove name (ps.foldl (fun acc q => alPush name q acc) l)).2 =
        (alRemove name l).2 := by
  intro ps
  induction ps with
  | nil => intro l; simp
  | cons q qs ih =>
    intro l
    simp only [List.foldl_cons]
    obtain ⟨ih1, ih2⟩ := ih (alPush name q l)
    rw [alRemove_alPush] at ih1 ih2
    refine ⟨?_, ?_⟩
    · rw [ih1]
      simp
    · rw [ih2]

/-! ### Claim theorems -/

/-- C1: for every sequence of `add_region` calls with pairwise
non-overlapping ranges, pairwise-distinct names and valid regions (positive
size, and the half-open range `[base, base+size)` lies inside the 64-bit
address space — which the claim's ranges presuppose and whose overflow the
spec's §9 leaves unspecified), every call succeeds; afterwards
`get_region_by_addr` returns the covering region for every address inside
some registered range, and returns `Err(addr)` carrying exactly the queried
address for every other address, including on the empty Space (`ps = []`). -/
theorem c1_add_then_resolve {α : Type} (ps : List (String × Region α))
    (hval : ∀ p ∈ ps, (p.2).valid)
    (hnames : ps.Pairwise (fun a b => a.1 ≠ b.1))
    (hdisj : ps.Pairwise (fun a b => ¬ rangesIntersect a.2.info b.2.info)) :
    Space.addSeqOk Space.new ps = true ∧
    (∀ p ∈ ps, ∀ addr, p.2.info.base ≤ addr →
      addr < p.2.info.base + p.2.info.size →
      (Space.addSeq Space.new ps).get_region_by_addr addr = .ok p.2) ∧
    (∀ addr,
      (∀ p ∈ ps, ¬ (p.2.info.base ≤ addr ∧ addr < p.2.info.base + p.2.info.size)) →
      (Space.addSeq Space.new ps).get_region_by_addr addr = .error addr) := by
  have hWF0 : (Space.new : Space α).WF := by
    refine ⟨List.Pairwise.nil, ?_, List.Pairwise.nil, List.Pairwise.nil, ?_⟩ <;>
      intro e he <;> cases he
  obtain ⟨hok, hWFf, hmem⟩ := addSeq_spec ps Space.new hWF0 hval hnames hdisj
    (by intro p hp e he; cases he)
  refine ⟨hok, ?_, ?_⟩
  · intro p hp addr h1 h2
    have he : (p.2.info.base, p.1, p.2) ∈ (Space.addSeq Space.new ps).regions := by
      rw [hmem]
      exact Or.inr (List.mem_map_of_mem _ hp)
    exact get_region_by_addr_mem hWFf he h1 h2
  · intro addr hnc
    apply get_region_by_addr_notCovered hWFf
    intro e he
    rcases (hmem e).mp he with h0 | h0
    · cases h0
    · obtain ⟨p, hp, rfl⟩ := List.mem_map.mp h0
      exact hnc p hp

/-- C1 witness: the two-region batch `psRAM` satisfies the hypotheses, and
address `0x1004 = 4100` then resolves into the `"ram"` region. -/
theorem c1_witness :
    (∀ p ∈ psRAM, (p.2).valid) ∧ psRAM.Pairwise (fun a b => a.1 ≠ b.1) ∧
    (Space.addSeq Space.new psRAM).get_region_by_addr 4100 =
      .ok (sampleRegion 4096 4096) :=
  ⟨by decide, by decide,
    (c1_add_then_resolve psRAM (by decide) (by decide) (by decide)).2.1
      ("ram", sampleRegion 4096 4096) (List.mem_cons_self _ _) 4100
      (by decide) (by decide)⟩

/-- C3: registering under a name that already labels a region fails with
`Renamed` carrying that name — whatever the candidate's range, overlapping
or not — and leaves the Space unchanged. -/
theorem c3_renamed_rejected {α : Type} (s : Space α) (name : String)
    (region : Region α) (hocc : ∃ e ∈ s.regions, e.2.1 = name) :
    (s.add_region name region).1 = .error (.Renamed name (renamedMsg name)) ∧
    (s.add_region name region).2 = s := by
  rw [add_region_renamed region hocc]
  exact ⟨rfl, rfl⟩

/-- C3 witness: `spaceA` holds `"a"`; re-adding `"a"` with the
non-overlapping candidate `regD` still fails with `Renamed "a"`. -/
theorem c3_witness :
    (∃ e ∈ spaceA.regions, e.2.1 = "a") ∧
    (∀ e ∈ spaceA.regions, ¬ rangesIntersect regD.info e.2.2.info) ∧
    (spaceA.add_region "a" regD).1 = .error (.Renamed "a" (renamedMsg "a")) :=
  ⟨by decide, by decide, (c3_renamed_rejected spaceA "a" regD (by decide)).1⟩

/-- C10: when the candidate both reuses an existing name and overlaps an
existing region's range, `add_region` returns `Renamed`, never `Overlap`:
the name check runs before the overlap check. -/
theorem c10_renamed_wins_over_overlap {α : Type} (s : Space α) (name : String)
    (region : Region α)
    (hocc : ∃ e ∈ s.regions, e.2.1 = name)
    (hover : ∃ e ∈ s.regions, rangesIntersect region.info e.2.2.info) :
    (s.add_region name region).1 = .error (.Renamed name (renamedMsg name)) := by
  rw [add_region_renamed region hocc]

/-- C10 witness: `regC` overlaps `regA` and reuses the name `"a"`; the error
is `Renamed`. -/
theorem c10_witness :
    (∃ e ∈ spaceA.regions, e.2.1 = "a") ∧
    (∃ e ∈ spaceA.regions, rangesIntersect regC.info e.2.2.info) ∧
    (spaceA.add_region "a" regC).1 = .error (.Renamed "a" (renamedMsg "a")) :=
  ⟨by decide, by decide,
    c10_renamed_wins_over_overlap spaceA "a" regC (by decide) (by decide)⟩

/-- C5 counterexample: the code performs no zero-size check. On the empty
Space, `add_region` of the size-0 region `[5, 5)` returns `Ok` and registers
it instead of rejecting it with an error, refuting the claim that every
size-0 candidate is explicitly rejected. -/
theorem c5_counterexample :
    regZero.info.size = 0 ∧
    ((Space.new : Space Unit).add_region "z" regZero).1.isOk = true ∧
    ((Space.new : Space Unit).add_region "z" regZero).2.regions.map
      (fun e => (e.1, e.2.1)) = [(5, "z")] :=
  ⟨rfl, rfl, rfl⟩

/-- C5 (amended): `add_region` has no explicit zero-size rejection; on the
empty Space a size-0 candidate (like any candidate) passes both checks
vacuously, is registered keyed by its base, and `Ok` is returned. -/
theorem c5_zero_size_accepted {α : Type} (name : String) (region : Region α)
    (h : region.info.size = 0) :
    ((Space.new : Space α).add_region name region).1 = .ok region ∧
    ((Space.new : Space α).add_region name region).2.regions =
      [(region.info.base, name, region)] :=
  ⟨rfl, rfl⟩

/-- C5 witness: the size-0 region `regZero` is accepted on the empty Space. -/
theorem c5_witness :
    regZero.info.size = 0 ∧
    ((Space.new : Space Unit).add_region "z" regZero).1 = .ok regZero :=
  ⟨rfl, (c5_zero_size_accepted "z" regZero rfl).1⟩

/-- C4: the mutating Space operations preserve the invariants (strictly
sorted keys each equal to the stored region's base, pairwise-distinct names,
pairwise-disjoint ranges, stored regions valid), and never alter a stored
entry in place: `add_region` at most adds its own `(base, name, region)`
entry, `delete_region` only removes entries, `clean` leaves the region map
untouched. The lookup and typed-access operations (`get_region`,
`get_region_by_addr`, `read_*`/`write_*`) take the Space immutably in this
model — they return no Space — so they preserve the invariants by
construction. -/
theorem c4_operations_preserve_invariants {α : Type} (s : Space α)
    (name : String) (region : Region α) (p : RegionCPtr)
    (hWF : s.WF) (hval : region.valid) :
    ((s.add_region name region).2).WF ∧
    (∀ e ∈ (s.add_region name region).2.regions,
      e ∈ s.regions ∨ e = (region.info.base, name, region)) ∧
    ((s.delete_region name).1).WF ∧
    (∀ e ∈ (s.delete_region name).1.regions, e ∈ s.regions) ∧
    ((s.clean name p).WF) ∧
    (s.clean name p).regions = s.regions := by
  obtain ⟨h1, h2⟩ := add_region_WF hWF hval
  obtain ⟨h3, h4⟩ := delete_region_WF s name hWF
  exact ⟨h1, h2, h3, h4, hWF, rfl⟩

/-- C4 witness: adding the valid disjoint region `regD` to the well-formed
`spaceAB` preserves the invariants. -/
theorem c4_witness :
    spaceAB.WF ∧ regD.valid ∧ ((spaceAB.add_region "d" regD).2).WF :=
  ⟨by decide, by decide,
    (c4_operations_preserve_invariants spaceAB "d" regD 0
      (by decide) (by decide)).1⟩

/-- C6: deleting an absent name leaves the region map unchanged; after
deleting a present name, every address that lay in the deleted region's
range and is covered by no remaining region resolves to `Err(addr)`. -/
theorem c6_delete_region_unmaps {α : Type} (s : Space α) (name : String)
    (hWF : s.WF) :
    ((∀ e ∈ s.regions, e.2.1 ≠ name) →
      (s.delete_region name).1.regions = s.regions) ∧
    (∀ e₀ ∈ s.regions, e₀.2.1 = name →
      ∀ addr, e₀.2.2.info.base ≤ addr →
      addr < e₀.2.2.info.base + e₀.2.2.info.size →
      (∀ e ∈ (s.delete_region name).1.regions,
        ¬ (e.2.2.info.base ≤ addr ∧ addr < e.2.2.info.base + e.2.2.info.size)) →
      ((s.delete_region name).1).get_region_by_addr addr = .error addr) := by
  refine ⟨delete_region_absent s name, ?_⟩
  intro e₀ hmem hname addr h1 h2 hnc
  exact get_region_by_addr_notCovered (delete_region_WF s name hWF).1 hnc

/-- C6 witness: deleting `"a"` from `spaceA` unmaps address 3, which lay in
`regA = [0, 10)`. -/
theorem c6_witness :
    spaceA.WF ∧ ((spaceA.delete_region "a").1).get_region_by_addr 3 = .error 3 :=
  ⟨by decide,
    (c6_delete_region_unmaps spaceA "a" (by decide)).2 (0, "a", regA)
      (List.mem_cons_self _ _) rfl 3 (by decide) (by decide) (by decide)⟩

/-- C2 counterexample: in a Space holding `"a" = [0,10)` and `R1 = "b" =
[20,30)`, the fresh-named candidate `"c" = [5,25)` intersects `R1 = "b"`
(configuration: candidate's end inside R1), yet `add_region` returns
`Overlap` carrying `"a"` — the base-least overlapping region — not R1's name
`"b"`; so the claim's universal "carrying R1's name" fails. -/
theorem c2_counterexample :
    spaceAB.WF ∧ rangesIntersect regC.info regB.info ∧
    (∀ e ∈ spaceAB.regions, e.2.1 ≠ "c") ∧
    errOverlapName (spaceAB.add_region "c" regC).1 = some "a" :=
  ⟨by decide, by decide, by decide, by decide⟩

/-- C2 (amended): in a well-formed Space, a valid fresh-named candidate
whose range intersects the stored region `R1` — in any of the four overlap
configurations, all subsumed by range intersection — is rejected with
`Overlap` carrying `R1`'s name, provided `R1` is the only stored region the
candidate intersects (otherwise the error names the base-least overlapping
region); the Space is left completely unchanged in either case. -/
theorem c2_overlap_rejected {α : Type} (s : Space α) (name : String)
    (region : Region α) (e₁ : Nat × String × Region α)
    (hWF : s.WF) (hval : region.valid)
    (hfresh : ∀ e ∈ s.regions, e.2.1 ≠ name)
    (hmem : e₁ ∈ s.regions)
    (hint : rangesIntersect region.info e₁.2.2.info)
    (huniq : ∀ e ∈ s.regions, rangesIntersect region.info e.2.2.info → e.2.1 = e₁.2.1) :
    (s.add_region name region).1 =
      .error (.Overlap e₁.2.1 (overlapMsg name region.info e₁.2.1 e₁.2.2.info)) ∧
    (s.add_region name region).2 = s := by
  obtain ⟨hsort, hkeys, hnames, hdisj, hvals⟩ := hWF
  have hf1 : s.regions.find? (fun e => e.2.1 = name) = none := by
    rw [List.find?_eq_none]
    intro e he
    simpa using hfresh e he
  have hsome :
      (s.regions.find? (fun e => overlapPred region.info e.2.2.info)).isSome = true := by
    rw [List.find?_isSome]
    exact ⟨e₁, hmem,
      decide_eq_true ((overlapPred_iff_intersect hval (hvals e₁ hmem)).mpr hint)⟩
  obtain ⟨v, hfind⟩ := Option.isSome_iff_exists.mp hsome
  have hv_mem := List.mem_of_find?_eq_some hfind
  have hv_pred : overlapPred region.info v.2.2.info := by
    have := List.find?_some hfind
    simpa using this
  have hv_int : rangesIntersect region.info v.2.2.info :=
    (overlapPred_iff_intersect hval (hvals v hv_mem)).mp hv_pred
  have hv_eq : v = e₁ :=
    entry_eq_of_name_eq hnames hv_mem hmem (huniq v hv_mem hv_int)
  subst hv_eq
  simp only [Space.add_region, hf1, hfind]
  exact ⟨by trivial, by trivial⟩

/-- C2 witness: `[5,15)` intersects only `regA` in `spaceA`; the error is
`Overlap "a"` and the Space is unchanged. -/
theorem c2_witness :
    spaceA.WF ∧ (sampleRegion 5 10).valid ∧
    rangesIntersect (sampleRegion 5 10).info regA.info ∧
    (spaceA.add_region "x" (sampleRegion 5 10)).2 = spaceA :=
  ⟨by decide, by decide, by decide,
    (c2_overlap_rejected spaceA "x" (sampleRegion 5 10) (0, "a", regA)
      (by decide) (by decide) (by decide) (List.mem_cons_self _ _) (by decide)
      (fun e he _ => by
        rcases List.mem_cons.mp he with rfl | h
        · rfl
        · cases h)).2⟩

/-- C7: `get_space` hands out stable handles: a second call with the same
name returns the same handle and changes nothing; the first call for an
absent name allocates exactly one fresh empty Space and returns its handle;
a call for a present name returns the registered handle with the table
untouched; and a mutation written through the returned handle is read back
through the handle returned by the other call — aliasing visibility. -/
theorem c7_get_space_shares {α : Type} (t : SpaceTable α) (name : String)
    (hWF : ∀ e ∈ t.spaces, e.2 < t.heap.length) :
    ((((t.get_space name).2).get_space name).1 = (t.get_space name).1 ∧
      (((t.get_space name).2).get_space name).2 = (t.get_space name).2) ∧
    (t.spaces.find? (fun e => e.1 = name) = none →
      (t.get_space name).2.heap = t.heap ++ [Space.new] ∧
      ((t.get_space name).2).deref (t.get_space name).1 = some Space.new) ∧
    (∀ e, t.spaces.find? (fun e' => e'.1 = name) = some e →
      (t.get_space name).1 = e.2 ∧ (t.get_space name).2 = t) ∧
    (∀ sp : Space α,
      (((t.get_space name).2).setSpace (t.get_space name).1 sp).deref
        ((((t.get_space name).2).get_space name).1) = some sp) := by
  cases hf : t.spaces.find? (fun e => e.1 = name) with
  | some e =>
    have hlen : e.2 < t.heap.length := hWF e (List.mem_of_find?_eq_some hf)
    simp only [SpaceTable.get_space, hf]
    refine ⟨⟨by trivial, by trivial⟩, ?_, ?_, ?_⟩
    · intro hcontra
      cases hcontra
    · intro e' he'
      cases he'
      exact ⟨by trivial, by trivial⟩
    · intro sp
      simp only [SpaceTable.setSpace, SpaceTable.deref]
      exact List.getElem?_set_self (by simpa using hlen)
  | none =>
    have hf2 : (t.spaces ++ [(name, t.heap.length)]).find?
        (fun e => e.1 = name) = some (name, t.heap.length) := by
      rw [List.find?_append, hf]
      simp [List.find?_cons]
    simp only [SpaceTable.get_space, hf, hf2]
    refine ⟨⟨by trivial, by trivial⟩, ?_, ?_, ?_⟩
    · intro _
      exact ⟨by trivial, by
        simp only [SpaceTable.deref]
        exact List.getElem?_concat_length t.heap Space.new⟩
    · intro e' he'
      cases he'
    · intro sp
      simp only [SpaceTable.setSpace, SpaceTable.deref]
      exact List.getElem?_set_self (by simp)

/-- C7 witness: from the empty table, the first `get_space "sys"` allocates
one empty Space and returns a handle to it. -/
theorem c7_witness :
    (∀ e ∈ emptyTable.spaces, e.2 < emptyTable.heap.length) ∧
    ((emptyTable.get_space "sys").2.heap = emptyTable.heap ++ [Space.new] ∧
      ((emptyTable.get_space "sys").2).deref (emptyTable.get_space "sys").1 =
        some Space.new) :=
  ⟨by decide, (c7_get_space_shares emptyTable "sys" (by decide)).2.1 rfl⟩

/-- C8: each typed access resolves the region via `get_region_by_addr`; a
resolution failure (which always carries exactly the queried address) is
propagated unchanged, and on success the access is delegated to the resolved
region's typed-access capability, whose result is returned as-is — no
alignment, span or in-region bounds validation happens in `Space`. -/
theorem c8_typed_access_delegates {α : Type} (s : Space α) (addr : Nat)
    (d8 d16 d32 d64 : Nat) (buf : List Nat) :
    (∀ a, s.get_region_by_addr addr = .error a → a = addr) ∧
    (s.get_region_by_addr addr = .error addr →
      s.read_u8 addr = .error addr ∧ s.read_u16 addr = .error addr ∧
      s.read_u32 addr = .error addr ∧ s.read_u64 addr = .error addr ∧
      s.read_bytes addr buf = .error addr ∧
      s.write_u8 addr d8 = .error addr ∧ s.write_u16 addr d16 = .error addr ∧
      s.write_u32 addr d32 = .error addr ∧ s.write_u64 addr d64 = .error addr ∧
      s.write_bytes addr buf = .error addr) ∧
    (∀ region, s.get_region_by_addr addr = .ok region →
      s.read_u8 addr = .ok (region.r8 addr) ∧
      s.read_u16 addr = .ok (region.r16 addr) ∧
      s.read_u32 addr = .ok (region.r32 addr) ∧
      s.read_u64 addr = .ok (region.r64 addr) ∧
      s.read_bytes addr buf = .ok (region.rbytes addr buf) ∧
      s.write_u8 addr d8 = .ok (region.w8 addr d8) ∧
      s.write_u16 addr d16 = .ok (region.w16 addr d16) ∧
      s.write_u32 addr d32 = .ok (region.w32 addr d32) ∧
      s.write_u64 addr d64 = .ok (region.w64 addr d64) ∧
      s.write_bytes addr buf = .ok (region.wbytes addr buf)) := by
  refine ⟨fun a h => get_region_by_addr_error_eq h, fun h => ?_, fun region h => ?_⟩
  · simp [Space.read_u8, Space.read_u16, Space.read_u32, Space.read_u64,
      Space.read_bytes, Space.write_u8, Space.write_u16, Space.write_u32,
      Space.write_u64, Space.write_bytes, h, Except.map]
  · simp [Space.read_u8, Space.read_u16, Space.read_u32, Space.read_u64,
      Space.read_bytes, Space.write_u8, Space.write_u16, Space.write_u32,
      Space.write_u64, Space.write_bytes, h, Except.map]

/-- C8 witness: on the empty Space, address 7 is unmapped and `read_u8`
propagates `Err 7` unchanged. -/
theorem c8_witness :
    (Space.new : Space Unit).get_region_by_addr 7 = .error 7 ∧
    (Space.new : Space Unit).read_u8 7 = .error 7 :=
  ⟨rfl, ((c8_typed_access_delegates (Space.new : Space Unit) 7 0 0 0 0 []).2.1 rfl).1⟩

/-- C9: if the handles `ps` were registered under `name` by `clean` (in that
order) starting from a Space with no pending registrations for `name`, then
`delete_region name` disposes exactly `ps`, in registration order, each
once; afterwards the registration list for `name` is empty, so a second
`delete_region name` disposes nothing. -/
theorem c9_clean_disposal_order {α : Type} (s : Space α) (name : String)
    (ps : List RegionCPtr) (hs : alLookup s.ptrs name = none) :
    ((ps.foldl (fun sp q => sp.clean name q) s).delete_region name).2 = ps ∧
    alLookup
      ((((ps.foldl (fun sp q => sp.clean name q) s).delete_region name).1).ptrs)
      name = none ∧
    (((((ps.foldl (fun sp q => sp.clean name q) s).delete_region name).1)).delete_region
      name).2 = [] := by
  have hptrs := (foldl_clean_eq name ps s).1
  have hrem := foldl_alPush_remove name ps s.ptrs
  have hfst : (alRemove name s.ptrs).1 = none := by
    rw [alRemove_fst]
    exact hs
  have hsnd : (alRemove name s.ptrs).2 = s.ptrs := alRemove_snd_of_none hs
  have h2 : ((ps.foldl (fun sp q => sp.clean name q) s).delete_region name).1.ptrs
      = s.ptrs := by
    show (alRemove name (ps.foldl (fun sp q => sp.clean name q) s).ptrs).2 = s.ptrs
    rw [hptrs, hrem.2, hsnd]
  refine ⟨?_, ?_, ?_⟩
  · show ((alRemove name (ps.foldl (fun sp q => sp.clean name q) s).ptrs).1).getD []
      = ps
    rw [hptrs, hrem.1, hfst]
    simp
  · rw [h2]
    exact hs
  · show ((alRemove name
      (((ps.foldl (fun sp q => sp.clean name q) s).delete_region name).1.ptrs)).1).getD []
      = []
    rw [h2, hfst]
    rfl

/-- C9 witness: registering handles 11 then 22 under `"blk"` on a fresh
Space makes `delete_region "blk"` dispose `[11, 22]` in that order. -/
theorem c9_witness :
    alLookup (Space.new : Space Unit).ptrs "blk" = none ∧
    ((([11, 22] : List RegionCPtr).foldl
      (fun sp q => sp.clean "blk" q) (Space.new : Space Unit)).delete_region "blk").2 =
      [11, 22] :=
  ⟨rfl, (c9_clean_disposal_order Space.new "blk" [11, 22] rfl).1⟩
